import Mathlib

/-!
Verification of the satellite tracking and targeting core (skylock).

Shallow embedding of the Python source:
* `server/model/schema.py`, `server/model/repository.py` (SQLite TLE store,
  upsert, TLE text parser, fetch-and-store utility),
* `server/service/connection_manager.py` (fetch strategy chain),
* `server/service/tle_scheduler_service.py` (refresh scheduler wake),
* `server/service/satellite_service.py` (nearest-satellite selection,
  ECI to ECEF conversion),
* `app.py` (circular EMA bearing smoothing and the alignment/lock gate).

Machine floats are modelled by real numbers; SQLite rows by lists of
records; the external SGP4 propagator by abstract function parameters.
-/

namespace Skylock

/-! ## Element repository (`server/model/repository.py`, `schema.py`)

The table `tles(id, name, line1, line2, source, fetched_at)` has a
uniqueness constraint over `(name, line1, line2)` (schema.py).  A row is
modelled with its six columns; the table keeps rows in insertion order
together with the next AUTOINCREMENT id. -/

structure TleRow where
  id : Nat
  name : String
  line1 : String
  line2 : String
  source : String
  fetched_at : String
  deriving Repr, DecidableEq

structure TleTable where
  rows : List TleRow
  nextId : Nat
  deriving Repr, DecidableEq

def emptyTable : TleTable := ⟨[], 1⟩

/-- The identity triple `(name, line1, line2)` of a row. -/
def identOf (r : TleRow) : String × String × String := (r.name, r.line1, r.line2)

/-- Whether a row has identity `k`. -/
def identEq (k : String × String × String) (r : TleRow) : Bool :=
  identOf r == k

/-- The list of identity triples stored in a table. -/
def idents (t : TleTable) : List (String × String × String) :=
  t.rows.map identOf

/-- Semantics of one parameter tuple executed against `UPSERT_SQL`
(repository.py lines 9-15):

`INSERT INTO tles (name, line1, line2, source, fetched_at) VALUES (?,?,?,?,?)
 ON CONFLICT(name, line1, line2) DO UPDATE SET
   source=excluded.source, fetched_at=excluded.source;`

Note the conflict branch writes `excluded.source` into BOTH the `source`
and the `fetched_at` column, exactly as the SQL reads. -/
def upsertOne (t : TleTable) (name line1 line2 source now : String) : TleTable :=
  if t.rows.any (identEq (name, line1, line2)) then
    { t with rows := t.rows.map fun r =>
        if identEq (name, line1, line2) r then
          { r with source := source, fetched_at := source }
        else r }
  else
    { rows := t.rows ++ [⟨t.nextId, name, line1, line2, source, now⟩],
      nextId := t.nextId + 1 }

/-- `SqliteTleRepository.upsert_tles` (repository.py lines 128-145):
computes `now` once at call time and runs `executemany(UPSERT_SQL, ...)`
over `(name, l1, l2, source, now)` tuples.  `now` is passed explicitly
here since the embedding is pure. -/
def upsert_tles (t : TleTable) (tles : List (String × String × String))
    (source now : String) : TleTable :=
  tles.foldl (fun acc k => upsertOne acc k.1 k.2.1 k.2.2 source now) t

/-! ## TLE text parser (`SqliteTleRepository.parse_tles`, repository.py 151-174)

The string primitives (`str.splitlines`, `str.strip() == ''`,
`str.startswith`) are embedded structurally over the character list of
the string so that concrete runs reduce inside the kernel. -/

/-- `text.splitlines()` for newline-separated text: split at every
`'\n'`; the final fragment is kept only if the text did not end in
`'\n'` (Python's `splitlines` emits no trailing empty piece; blank
pieces are filtered out afterwards anyway). -/
def splitLinesAux : List Char → List Char → List (List Char)
  | [], acc => [acc.reverse]
  | c :: cs, acc =>
    if c = '\n' then acc.reverse :: splitLinesAux cs []
    else splitLinesAux cs (c :: acc)

/-- `l.strip() == ''`: every character is whitespace. -/
def isBlankLine (l : List Char) : Bool :=
  l.all (fun c => c.isWhitespace)

/-- `s.startswith(p)`. -/
def startsWithChars (l p : List Char) : Bool :=
  p.isPrefixOf l

/-- The `while i < len(lines) - 1` loop of `parse_tles`.  The loop index
increases by at least one per iteration, so running it with
`fuel = lines.length` steps (one unit of fuel per iteration) reproduces
the Python loop exactly; the fuel only serves Lean's termination checker. -/
def parseLoop (lines : List (List Char)) :
    Nat → Nat → List (String × String × String)
  | _, 0 => []
  | i, fuel + 1 =>
    if i + 1 < lines.length then
      if startsWithChars (lines.getD i []) ['1', ' '] && decide (1 ≤ i) then
        (⟨lines.getD (i - 1) []⟩, ⟨lines.getD i []⟩,
          ⟨if i + 1 < lines.length then lines.getD (i + 1) [] else []⟩) ::
          parseLoop lines (i + 2) fuel
      else
        if i + 2 < lines.length then
          if startsWithChars (lines.getD (i + 1) []) ['1', ' '] &&
              startsWithChars (lines.getD (i + 2) []) ['2', ' '] then
            (⟨lines.getD i []⟩, ⟨lines.getD (i + 1) []⟩,
              ⟨lines.getD (i + 2) []⟩) ::
              parseLoop lines (i + 3) fuel
          else parseLoop lines (i + 1) fuel
        else []
    else []

/-- `parse_tles(text)`: split into lines, drop blank lines (the
`rstrip('\n')` applied to a `splitlines` element is the identity, so it
is omitted), then run the grouping loop from index 0. -/
def parse_tles (text : String) : List (String × String × String) :=
  let lines := (splitLinesAux text.data []).filter (fun l => !isBlankLine l)
  parseLoop lines 0 lines.length

/-! ## Fetch strategy chain (`server/service/connection_manager.py`)

A strategy's behaviour for one `fetch_url(url, params, timeout)` call is
modelled by the value of its `is_available()` probe and the result of its
`fetch_url` (`none` models Python `None`, i.e. a failed fetch). -/

structure Strategy where
  name : String
  available : Bool
  fetchResult : Option String
  deriving Repr, DecidableEq

/-- The loop of `ConnectionManager.fetch_url` (lines 99-115): skip
unavailable strategies, return the first non-`None` body, record
`"<name> failed to fetch"` for an available strategy whose fetch returned
`None`, and finally raise `ConnectionError` carrying the recorded errors. -/
def fetchUrlLoop : List Strategy → List String → Except (List String) String
  | [], errors => .error errors
  | s :: rest, errors =>
    if !s.available then fetchUrlLoop rest errors
    else
      match s.fetchResult with
      | some r => .ok r
      | none => fetchUrlLoop rest (errors ++ [s.name ++ " failed to fetch"])

/-- `ConnectionManager.fetch_url`: `.ok body` models a returned body,
`.error es` models the raised `ConnectionError` whose message joins `es`. -/
def fetch_url (strategies : List Strategy) : Except (List String) String :=
  fetchUrlLoop strategies []

/-- Specification-side definition, from the spec's words: the body of the
first strategy, in registration order, that is available and returns a
non-`None` body. -/
def firstSuccessfulBody (strategies : List Strategy) : Option String :=
  strategies.findSome? fun s => if s.available then s.fetchResult else none

/-- `ConnectionManager.is_available` (line 90-91). -/
def chain_is_available (strategies : List Strategy) : Bool :=
  strategies.any (·.available)

/-! ## Refresh scheduler (`server/service/tle_scheduler_service.py`)

One wake of the `_run` loop (lines 21-39).  Timestamps are integers
(epoch seconds).  `TleRepositoryUtils.fetch_and_store_group`
(repository.py lines 177-195) is embedded as it stands in the source:
its entire body is commented out (marked
`MARK: uncomment later when demo to prevent rate limit from celestrak`),
so the call performs no fetch, no parse and no store. -/

/-- `TleRepositoryUtils.fetch_and_store_group`: the docstring promises
"fetches, parses, and stores TLEs for a single group", but every
statement of the body is commented out in the source, so the repository
is returned unchanged. -/
def fetch_and_store_group (repo : TleTable) (_group : String)
    (_timeout : Int) : TleTable :=
  repo

structure SchedState where
  lastFetchTime : Option Int
  repo : TleTable
  deriving Repr, DecidableEq

/-- Whether a wake at time `now` is due (`_last_fetch_time is None or
now - _last_fetch_time >= timedelta(seconds=interval)`). -/
def wakeDue (s : SchedState) (now interval : Int) : Bool :=
  match s.lastFetchTime with
  | none => true
  | some lf => decide (now - lf ≥ interval)

/-- One wake of `TleSchedulerService._run`: if due and the connection
manager reports availability, call `fetch_and_store_group` and record
`_last_fetch_time = datetime.now()`; otherwise do nothing (the source
only logs). -/
def schedulerWake (s : SchedState) (now interval : Int) (available : Bool)
    (group : String) : SchedState :=
  if wakeDue s now interval then
    if available then
      { lastFetchTime := some now,
        repo := fetch_and_store_group s.repo group 20 }
    else s
  else s

/-! ## Real-valued helpers (floats are modelled by `ℝ`)

Python's float modulo `a % m` (sign of the divisor) is
`a - m * ⌊a / m⌋`; `math.radians`/`math.degrees` scale by `π / 180`;
`math.atan2 y x` is the argument of the complex number `x + y i`
(range `(-π, π]`, and `atan2 0 0 = 0 = Complex.arg 0`). -/

noncomputable def pymod (a m : ℝ) : ℝ := a - m * ⌊a / m⌋

noncomputable def radians (d : ℝ) : ℝ := d * Real.pi / 180

noncomputable def degrees (r : ℝ) : ℝ := r * 180 / Real.pi

noncomputable def atan2 (y x : ℝ) : ℝ := Complex.arg ⟨x, y⟩

/-! ## `app.py`: bearing smoothing and the alignment gate -/

/-- `ANGLE_TOL_DEG = 12.0` (app.py line 85). -/
noncomputable def ANGLE_TOL_DEG : ℝ := 12

/-- `HOLD_MS = 2000` (app.py line 86). -/
def HOLD_MS : ℕ := 2000

/-- `SMOOTH_ALPHA = 0.25` (app.py line 87). -/
noncomputable def SMOOTH_ALPHA : ℝ := 1 / 4

/-- `ang_wrap_deg(a) = (a % 360.0 + 360.0) % 360.0` (app.py 89-90). -/
noncomputable def ang_wrap_deg (a : ℝ) : ℝ := pymod (pymod a 360 + 360) 360

/-- `ang_diff_deg(a, b) = (a - b + 180.0) % 360.0 - 180.0` (app.py 92-94). -/
noncomputable def ang_diff_deg (a b : ℝ) : ℝ := pymod (a - b + 180) 360 - 180

/-- `circular_ema(prev_deg, new_deg, alpha)` (app.py 96-100): blend the
unit vectors of the two bearings and re-derive the angle via `atan2`. -/
noncomputable def circular_ema (prev_deg new_deg alpha : ℝ) : ℝ :=
  let pr := radians prev_deg
  let nr := radians new_deg
  let x := (1 - alpha) * Real.cos pr + alpha * Real.cos nr
  let y := (1 - alpha) * Real.sin pr + alpha * Real.sin nr
  ang_wrap_deg (degrees (atan2 y x))

/-- The mutable alignment state of `App` while in `STATE_POINT`:
`arrow_angle_smooth_deg`, `align_ok_since_ms`, and whether the app is
still on the point screen (`goto_danger_question` leaves it). -/
structure AlignState where
  smoothed : ℝ
  since : Option ℕ
  inPoint : Bool

/-- The state set up by `App.goto_point` (app.py 301-306):
`align_ok_since_ms = None`, `arrow_angle_smooth_deg = 0.0`,
`state = STATE_POINT`. -/
noncomputable def gotoPointState : AlignState := ⟨0, none, true⟩

/-- One tick's live inputs on the point screen: `pygame.time.get_ticks()`
and the raw screen bearing / elevation returned by
`bearing_to_satellite_deg`. -/
structure PointTick where
  now : ℕ
  angle : ℝ
  el : ℝ

/-- The smoothing step of `App.draw` (app.py 409-413): raw assignment
when `align_ok_since_ms is None and arrow_angle_smooth_deg == 0.0`,
otherwise the circular EMA with `SMOOTH_ALPHA`. -/
noncomputable def smoothUpd (s : AlignState) (t : PointTick) : ℝ :=
  if s.since = none ∧ s.smoothed = 0 then t.angle
  else circular_ema s.smoothed t.angle SMOOTH_ALPHA

/-- The `inside` condition of the alignment gate (app.py line 421):
`abs(ang_diff_deg(arrow_angle_smooth_deg, 0.0)) <= ANGLE_TOL_DEG and
el_deg > 0.0`. -/
noncomputable def insideCond (smoothed el : ℝ) : Prop :=
  |ang_diff_deg smoothed 0| ≤ ANGLE_TOL_DEG ∧ 0 < el

noncomputable instance (smoothed el : ℝ) : Decidable (insideCond smoothed el) :=
  instDecidableAnd

/-- The dwell-timer start used by an inside tick: keep the running
`align_ok_since_ms`, or start it at the current tick time. -/
def sinceVal (s : AlignState) (t : PointTick) : ℕ :=
  match s.since with
  | none => t.now
  | some v => v

/-- One `App.draw` pass in `STATE_POINT` (app.py 409-431): update the
smoothed bearing, evaluate `inside`, start or clear
`align_ok_since_ms`, and fire the lock transition
(`goto_danger_question`) once the dwell `HOLD_MS` has elapsed.  Off the
point screen, `draw` does not touch the gate.  Returns the next state
and whether the lock event fired on this tick. -/
noncomputable def drawTick (s : AlignState) (t : PointTick) : AlignState × Bool :=
  if s.inPoint then
    let sm := smoothUpd s t
    if insideCond sm t.el then
      if t.now - sinceVal s t ≥ HOLD_MS then
        (⟨sm, none, false⟩, true)
      else
        (⟨sm, some (sinceVal s t), true⟩, false)
    else
      (⟨sm, none, true⟩, false)
  else (s, false)

/-- The state sequence of a targeting session: state before tick `i`,
starting from `gotoPointState` and consuming the tick stream
`(now i, angle i, el i)`. -/
noncomputable def gateStates (now : ℕ → ℕ) (angle el : ℕ → ℝ) : ℕ → AlignState
  | 0 => gotoPointState
  | i + 1 => (drawTick (gateStates now angle el i) ⟨now i, angle i, el i⟩).1

/-- Whether the lock event fires on tick `i`. -/
noncomputable def gateFired (now : ℕ → ℕ) (angle el : ℕ → ℝ) (i : ℕ) : Bool :=
  (drawTick (gateStates now angle el i) ⟨now i, angle i, el i⟩).2

/-- The inside-tolerance condition evaluated on tick `i`, on the
smoothed bearing the tick computes.  Once the session has left the
point screen the gate no longer evaluates it; the condition is then
vacuously `True`. -/
noncomputable def gateInside (now : ℕ → ℕ) (angle el : ℕ → ℝ) (i : ℕ) : Prop :=
  if (gateStates now angle el i).inPoint then
    insideCond (smoothUpd (gateStates now angle el i) ⟨now i, angle i, el i⟩)
      (el i)
  else True

/-! ## Satellite service (`server/service/satellite_service.py`)

The epoch is represented by its Julian date `jd` (the external
`sgp4.api.jday` conversion from a datetime is outside the modelled
core).  The external SGP4 propagator is abstracted by two function
parameters mirroring `_satrec_from_tle` (TLE-line construction, `none`
on failure) and `satrec.sgp4` (error code, ECI position, velocity). -/

/-- `_gmst_rad_from_jd(jd)` (satellite_service.py 106-122): IAU-1982
GMST polynomial in degrees, normalized by `% 360.0`, then converted to
radians. -/
noncomputable def gmst_rad_from_jd (jd : ℝ) : ℝ :=
  let T := (jd - 2451545.0) / 36525.0
  let gmst_deg := 280.46061837 + 360.98564736629 * (jd - 2451545.0)
    + 0.000387933 * T * T - T ^ 3 / 38710000.0
  radians (pymod gmst_deg 360)

/-- `_eci_to_ecef(position_km, when)` (satellite_service.py 125-140):
rotate about the Z axis by GMST. -/
noncomputable def eci_to_ecef (p : ℝ × ℝ × ℝ) (jd : ℝ) : ℝ × ℝ × ℝ :=
  let theta := gmst_rad_from_jd jd
  let cos_t := Real.cos theta
  let sin_t := Real.sin theta
  (cos_t * p.1 + sin_t * p.2.1, -sin_t * p.1 + cos_t * p.2.1, p.2.2)

/-- `_geodetic_to_ecef(lat_deg, lon_deg, alt_m)` (satellite_service.py
143-165): WGS-84 geodetic coordinates to ECEF kilometres. -/
noncomputable def geodetic_to_ecef (lat_deg lon_deg alt_m : ℝ) : ℝ × ℝ × ℝ :=
  let a : ℝ := 6378.137
  let f : ℝ := 1.0 / 298.257223563
  let e2 := f * (2 - f)
  let lat := radians lat_deg
  let lon := radians lon_deg
  let alt_km := alt_m / 1000.0
  let sin_lat := Real.sin lat
  let cos_lat := Real.cos lat
  let N := a / Real.sqrt (1 - e2 * sin_lat * sin_lat)
  ((N + alt_km) * cos_lat * Real.cos lon,
    (N + alt_km) * cos_lat * Real.sin lon,
    (N * (1 - e2) + alt_km) * sin_lat)

/-- The Euclidean norm of a 3-vector. -/
noncomputable def norm3 (v : ℝ × ℝ × ℝ) : ℝ :=
  Real.sqrt (v.1 * v.1 + v.2.1 * v.2.1 + v.2.2 * v.2.2)

/-- `math.sqrt(dx*dx + dy*dy + dz*dz)` for `d = u - v`
(satellite_service.py 43-46). -/
noncomputable def dist3 (u v : ℝ × ℝ × ℝ) : ℝ :=
  Real.sqrt ((u.1 - v.1) * (u.1 - v.1) + (u.2.1 - v.2.1) * (u.2.1 - v.2.1)
    + (u.2.2 - v.2.2) * (u.2.2 - v.2.2))

/-- Result of `satrec.sgp4(jd, fr)` as packaged by
`_compute_state_for_datetime` (satellite_service.py 179-205): an error
code (`0` = success) and the ECI position/velocity.  The position list
is always a 3-list, so the service's `if not eci_pos` guard never
triggers and is not modelled. -/
structure SgpState where
  error : Int
  position : ℝ × ℝ × ℝ
  velocity : ℝ × ℝ × ℝ

/-- The best-candidate record built by `find_nearest_satellite`
(satellite_service.py 49-59); `when_utc` is carried as the Julian date. -/
structure NearestMatch where
  id : Nat
  name : String
  source : String
  fetched_at : String
  jd : ℝ
  distance_km : ℝ
  position_ecef_km : ℝ × ℝ × ℝ
  position_eci_km : ℝ × ℝ × ℝ
  velocity_km_s : ℝ × ℝ × ℝ

section SatelliteService

variable {Satrec : Type} (twoline2rv : String → String → Option Satrec)
variable (sgp4run : Satrec → SgpState)

/-- Whether a catalog row survives both skip checks of the selection
loop: `_satrec_from_tle` construction succeeds and the propagation
error code is `0`. -/
def propagationOk (r : TleRow) : Prop :=
  ∃ sr, twoline2rv r.line1 r.line2 = some sr ∧ (sgp4run sr).error = 0

/-- The ECI position the propagator yields for a row (junk value for
rows that fail construction; only used under `propagationOk`). -/
def eciOf (r : TleRow) : ℝ × ℝ × ℝ :=
  match twoline2rv r.line1 r.line2 with
  | some sr => (sgp4run sr).position
  | none => (0, 0, 0)

/-- The velocity the propagator yields for a row (junk value for rows
that fail construction). -/
def velOf (r : TleRow) : ℝ × ℝ × ℝ :=
  match twoline2rv r.line1 r.line2 with
  | some sr => (sgp4run sr).velocity
  | none => (0, 0, 0)

/-- The ECEF distance from a row's propagated position to the user. -/
noncomputable def distOf (user : ℝ × ℝ × ℝ) (jd : ℝ) (r : TleRow) : ℝ :=
  dist3 (eci_to_ecef (eciOf twoline2rv sgp4run r) jd) user

/-- The `best` dictionary built for a winning row. -/
noncomputable def mkBest (user : ℝ × ℝ × ℝ) (jd : ℝ) (r : TleRow) : NearestMatch :=
  { id := r.id, name := r.name, source := r.source, fetched_at := r.fetched_at,
    jd := jd, distance_km := distOf twoline2rv sgp4run user jd r,
    position_ecef_km := eci_to_ecef (eciOf twoline2rv sgp4run r) jd,
    position_eci_km := eciOf twoline2rv sgp4run r,
    velocity_km_s := velOf twoline2rv sgp4run r }

/-- One iteration of the `for tle in tles` loop of
`find_nearest_satellite` (satellite_service.py 32-59).  `none` for the
accumulator models `best = None, best_dist = inf`: every distance
compares `< inf`, so the first surviving row always replaces `none`. -/
noncomputable def findStep (user : ℝ × ℝ × ℝ) (jd : ℝ)
    (acc : Option NearestMatch) (r : TleRow) : Option NearestMatch :=
  match twoline2rv r.line1 r.line2 with
  | none => acc
  | some sr =>
    if (sgp4run sr).error ≠ 0 then acc
    else
      match acc with
      | none => some (mkBest twoline2rv sgp4run user jd r)
      | some b =>
        if distOf twoline2rv sgp4run user jd r < b.distance_km then
          some (mkBest twoline2rv sgp4run user jd r)
        else acc

/-- `Sgp4SatelliteService.find_nearest_satellite` (satellite_service.py
25-60) over the repository snapshot `tles`. -/
noncomputable def find_nearest_satellite (lat_deg lon_deg alt_m jd : ℝ)
    (tles : List TleRow) : Option NearestMatch :=
  let user_ecef := geodetic_to_ecef lat_deg lon_deg alt_m
  tles.foldl (findStep twoline2rv sgp4run user_ecef jd) none

end SatelliteService

/-! ## Arithmetic facts about the angle helpers -/

theorem pymod_eq_mul_fract {m : ℝ} (a : ℝ) (hm : m ≠ 0) :
    pymod a m = m * Int.fract (a / m) := by
  unfold pymod Int.fract
  field_simp

theorem pymod_nonneg {m : ℝ} (a : ℝ) (hm : 0 < m) : 0 ≤ pymod a m := by
  rw [pymod_eq_mul_fract a hm.ne']
  exact mul_nonneg hm.le (Int.fract_nonneg _)

theorem pymod_lt {m : ℝ} (a : ℝ) (hm : 0 < m) : pymod a m < m := by
  rw [pymod_eq_mul_fract a hm.ne']
  calc m * Int.fract (a / m) < m * 1 :=
        (mul_lt_mul_left hm).mpr (Int.fract_lt_one _)
    _ = m := mul_one m

theorem pymod_eq_self {m a : ℝ} (hm : 0 < m) (h0 : 0 ≤ a) (h1 : a < m) :
    pymod a m = a := by
  unfold pymod
  have hfloor : ⌊a / m⌋ = 0 := by
    rw [Int.floor_eq_zero_iff]
    constructor
    · exact div_nonneg h0 hm.le
    · rw [div_lt_one hm]
      exact h1
  rw [hfloor]
  push_cast
  ring

theorem pymod_add_right {m : ℝ} (a : ℝ) (hm : m ≠ 0) :
    pymod (a + m) m = pymod a m := by
  unfold pymod
  have h : (a + m) / m = a / m + 1 := by field_simp
  rw [h, Int.floor_add_one]
  push_cast
  ring

theorem pymod_sub_right {m : ℝ} (a : ℝ) (hm : m ≠ 0) :
    pymod (a - m) m = pymod a m := by
  have h : a - m + m = a := by ring
  rw [← pymod_add_right (a - m) hm, h]

theorem pymod_neg_window {m a : ℝ} (hm : 0 < m) (h0 : -m ≤ a) (h1 : a < 0) :
    pymod a m = a + m := by
  rw [← pymod_add_right a hm.ne']
  exact pymod_eq_self hm (by linarith) (by linarith)

theorem ang_wrap_eq_pymod (a : ℝ) : ang_wrap_deg a = pymod a 360 := by
  unfold ang_wrap_deg
  rw [pymod_add_right _ (by norm_num)]
  exact pymod_eq_self (by norm_num) (pymod_nonneg a (by norm_num))
    (pymod_lt a (by norm_num))

theorem ang_wrap_eq_self {a : ℝ} (h0 : 0 ≤ a) (h1 : a < 360) :
    ang_wrap_deg a = a := by
  rw [ang_wrap_eq_pymod]
  exact pymod_eq_self (by norm_num) h0 h1

/-- `atan2` of a unit vector at angle `θ` recovers `θ` reduced into
`(-π, π]`. -/
theorem atan2_sin_cos (θ : ℝ) :
    atan2 (Real.sin θ) (Real.cos θ) = toIocMod Real.two_pi_pos (-Real.pi) θ := by
  unfold atan2
  have h : (⟨Real.cos θ, Real.sin θ⟩ : ℂ)
      = Complex.cos θ + Complex.sin θ * Complex.I := by
    rw [Complex.mk_eq_add_mul_I, Complex.ofReal_cos, Complex.ofReal_sin]
  rw [h, Complex.arg_cos_add_sin_mul_I_eq_toIocMod]

/-- The circular EMA of a constant bearing in `[0, 360)` is that bearing,
for every blending factor. -/
theorem circular_ema_const {b : ℝ} (alpha : ℝ) (hb0 : 0 ≤ b) (hb1 : b < 360) :
    circular_ema b b alpha = b := by
  simp only [circular_ema]
  have hx : (1 - alpha) * Real.cos (radians b) + alpha * Real.cos (radians b)
      = Real.cos (radians b) := by ring
  have hy : (1 - alpha) * Real.sin (radians b) + alpha * Real.sin (radians b)
      = Real.sin (radians b) := by ring
  rw [hx, hy, atan2_sin_cos]
  have hpi := Real.pi_pos
  have hθ0 : 0 ≤ radians b := by
    unfold radians
    positivity
  rcases le_or_lt (radians b) Real.pi with hle | hgt
  · have htoc : toIocMod Real.two_pi_pos (-Real.pi) (radians b) = radians b := by
      rw [toIocMod_eq_self]
      constructor
      · linarith
      · linarith
    rw [htoc]
    have hdeg : degrees (radians b) = b := by
      unfold degrees radians
      field_simp
    rw [hdeg]
    exact ang_wrap_eq_self hb0 hb1
  · have hθ2 : radians b < 2 * Real.pi := by
      unfold radians
      nlinarith
    have htoc : toIocMod Real.two_pi_pos (-Real.pi) (radians b)
        = radians b - 2 * Real.pi := by
      rw [toIocMod_eq_iff]
      refine ⟨⟨by linarith, by linarith⟩, 1, ?_⟩
      rw [one_zsmul]
      ring
    rw [htoc]
    have hdeg : degrees (radians b - 2 * Real.pi) = b - 360 := by
      unfold degrees radians
      field_simp
      ring
    rw [hdeg, ang_wrap_eq_pymod, pymod_sub_right b (by norm_num)]
    have hb180 : 180 < b := by
      unfold radians at hgt
      nlinarith
    exact pymod_eq_self (by norm_num) hb0 hb1

/-- `atan2` of a vector with positive first coordinate lies in
`(-π/2, π/2)`. -/
theorem abs_atan2_lt_pi_div_two {y x : ℝ} (hx : 0 < x) :
    |atan2 y x| < Real.pi / 2 := by
  unfold atan2
  exact Complex.abs_arg_lt_pi_div_two_iff.mpr (Or.inl (by simpa using hx))

/-- Evaluating the circular EMA on previous bearing `0`, new bearing
`90` and `alpha = 1/4` gives a value strictly outside `{90}` (it is
`arctan(1/3)` in degrees, inside `(0, 45)`); used to exhibit that a raw
re-assignment of `90` is observably different from the EMA update. -/
theorem circular_ema_zero_ninety_ne : circular_ema 0 90 (1 / 4) ≠ 90 := by
  have hpi := Real.pi_pos
  simp only [circular_ema]
  have hr0 : radians 0 = 0 := by
    unfold radians
    ring
  have hr90 : radians 90 = Real.pi / 2 := by
    unfold radians
    ring
  rw [hr0, hr90, Real.cos_zero, Real.sin_zero, Real.cos_pi_div_two,
    Real.sin_pi_div_two]
  have hx : (1 - 1 / 4 : ℝ) * 1 + 1 / 4 * 0 = 3 / 4 := by norm_num
  have hy : (1 - 1 / 4 : ℝ) * 0 + 1 / 4 * 1 = 1 / 4 := by norm_num
  rw [hx, hy]
  have habs : |atan2 (1 / 4) (3 / 4)| < Real.pi / 2 :=
    abs_atan2_lt_pi_div_two (by norm_num)
  set v := atan2 (1 / 4) (3 / 4) with hv
  have hdabs : |degrees v| < 90 := by
    unfold degrees
    rw [abs_div, abs_mul, abs_of_pos hpi]
    rw [div_lt_iff₀ hpi]
    have h180 : |v| * |(180 : ℝ)| = |v| * 180 := by
      norm_num
    rw [h180]
    nlinarith [habs, abs_nonneg v]
  rcases le_or_lt 0 (degrees v) with hd | hd
  · rw [ang_wrap_eq_self hd (by cases abs_lt.mp hdabs with | intro h1 h2 => linarith)]
    cases abs_lt.mp hdabs with | intro h1 h2 => linarith
  · rw [ang_wrap_eq_pymod,
      pymod_neg_window (by norm_num) (by cases abs_lt.mp hdabs with
        | intro h1 h2 => linarith) hd]
    cases abs_lt.mp hdabs with | intro h1 h2 => linarith

/-! ## The ECI to ECEF conversion is a Z-axis rotation -/

/-- The Z-axis GMST rotation keeps the third coordinate. -/
theorem eci_to_ecef_z (p : ℝ × ℝ × ℝ) (jd : ℝ) :
    (eci_to_ecef p jd).2.2 = p.2.2 := rfl

/-- The Z-axis GMST rotation keeps the Euclidean norm. -/
theorem eci_to_ecef_norm (p : ℝ × ℝ × ℝ) (jd : ℝ) :
    norm3 (eci_to_ecef p jd) = norm3 p := by
  unfold norm3 eci_to_ecef
  simp only
  congr 1
  have h := Real.sin_sq_add_cos_sq (gmst_rad_from_jd jd)
  set c := Real.cos (gmst_rad_from_jd jd)
  set s := Real.sin (gmst_rad_from_jd jd)
  linear_combination (p.1 * p.1 + p.2.1 * p.2.1) * h

/-! ## Behaviour of the alignment gate -/

section GateLemmas

variable (now : ℕ → ℕ) (angle el : ℕ → ℝ)

theorem gateStates_succ (i : ℕ) :
    gateStates now angle el (i + 1)
      = (drawTick (gateStates now angle el i) ⟨now i, angle i, el i⟩).1 := rfl

/-- Off the point screen the dwell timer is clear. -/
theorem since_none_of_not_inPoint (i : ℕ)
    (h : (gateStates now angle el i).inPoint = false) :
    (gateStates now angle el i).since = none := by
  induction i with
  | zero => simp [gateStates, gotoPointState] at h
  | succ i ih =>
    rw [gateStates_succ] at h ⊢
    by_cases hp : (gateStates now angle el i).inPoint = true
    · by_cases hin : insideCond
          (smoothUpd (gateStates now angle el i) ⟨now i, angle i, el i⟩) (el i)
      · by_cases hf : HOLD_MS ≤ now i -
            sinceVal (gateStates now angle el i) ⟨now i, angle i, el i⟩
        · simp [drawTick, hp, hin, hf]
        · simp [drawTick, hp, hin, hf] at h
      · simp [drawTick, hp, hin] at h
    · simp only [Bool.not_eq_true] at hp
      simp only [drawTick, hp, Bool.false_eq_true, if_false]
      exact ih hp

/-- Leaving the point screen is permanent. -/
theorem inPoint_mono {i j : ℕ} (hij : i ≤ j)
    (h : (gateStates now angle el i).inPoint = false) :
    (gateStates now angle el j).inPoint = false := by
  induction j, hij using Nat.le_induction with
  | base => exact h
  | succ j _ ih =>
    rw [gateStates_succ]
    simp [drawTick, ih]

/-- A set dwell timer records the wall-clock time of the first tick of
an unbroken inside streak: if the state before tick `i` carries
`align_ok_since_ms = s`, then some earlier tick `j` has `now j = s` and
every tick from `j` up to (excluding) `i` was inside tolerance. -/
theorem since_provenance (i : ℕ) (s : ℕ)
    (h : (gateStates now angle el i).since = some s) :
    ∃ j, j < i ∧ now j = s ∧
      ∀ k, j ≤ k → k < i → gateInside now angle el k := by
  induction i generalizing s with
  | zero => simp [gateStates, gotoPointState] at h
  | succ i ih =>
    rw [gateStates_succ] at h
    by_cases hp : (gateStates now angle el i).inPoint = true
    · by_cases hin : insideCond
          (smoothUpd (gateStates now angle el i) ⟨now i, angle i, el i⟩) (el i)
      · by_cases hf : HOLD_MS ≤ now i -
            sinceVal (gateStates now angle el i) ⟨now i, angle i, el i⟩
        · simp [drawTick, hp, hin, hf] at h
        · simp only [drawTick, hp, if_true, if_pos hin, if_neg hf,
            Option.some.injEq] at h
          have hgi : gateInside now angle el i := by
            simp [gateInside, hp, hin]
          cases hs : (gateStates now angle el i).since with
          | none =>
            refine ⟨i, Nat.lt_succ_self i, ?_, ?_⟩
            · rw [← h]
              simp [sinceVal, hs]
            · intro k hk1 hk2
              have : k = i := by omega
              subst this
              exact hgi
          | some v =>
            have hv : s = v := by
              rw [← h]
              simp [sinceVal, hs]
            subst hv
            obtain ⟨j, hj1, hj2, hj3⟩ := ih s hs
            refine ⟨j, by omega, hj2, ?_⟩
            intro k hk1 hk2
            rcases Nat.lt_or_ge k i with hk | hk
            · exact hj3 k hk1 hk
            · have : k = i := by omega
              subst this
              exact hgi
      · simp [drawTick, hp, hin] at h
    · simp only [Bool.not_eq_true] at hp
      simp only [drawTick, hp, Bool.false_eq_true, if_false] at h
      exact absurd h (by simp [since_none_of_not_inPoint now angle el i hp])

/-- Firing requires being on the point screen. -/
theorem fired_inPoint {i : ℕ} (h : gateFired now angle el i = true) :
    (gateStates now angle el i).inPoint = true := by
  by_contra hp
  simp only [Bool.not_eq_true] at hp
  simp [gateFired, drawTick, hp] at h

/-- Firing leaves the point screen. -/
theorem fired_next_not_inPoint {i : ℕ} (h : gateFired now angle el i = true) :
    (gateStates now angle el (i + 1)).inPoint = false := by
  have hp := fired_inPoint now angle el h
  rw [gateStates_succ]
  unfold gateFired at h
  by_cases hin : insideCond
      (smoothUpd (gateStates now angle el i) ⟨now i, angle i, el i⟩) (el i)
  · by_cases hf : HOLD_MS ≤ now i -
        sinceVal (gateStates now angle el i) ⟨now i, angle i, el i⟩
    · simp [drawTick, hp, hin, hf]
    · simp [drawTick, hp, hin, hf] at h
  · simp [drawTick, hp, hin] at h

/-- Soundness of the lock event: when tick `i` fires, there is a tick
`j ≤ i` with `now j + HOLD_MS ≤ now i` such that every tick in
`[j, i]` was inside tolerance. -/
theorem fired_sound (i : ℕ) (h : gateFired now angle el i = true) :
    ∃ j, j ≤ i ∧ now j + HOLD_MS ≤ now i ∧
      ∀ k, j ≤ k → k ≤ i → gateInside now angle el k := by
  have hp := fired_inPoint now angle el h
  unfold gateFired at h
  by_cases hin : insideCond
      (smoothUpd (gateStates now angle el i) ⟨now i, angle i, el i⟩) (el i)
  · by_cases hf : HOLD_MS ≤ now i -
        sinceVal (gateStates now angle el i) ⟨now i, angle i, el i⟩
    · have hgi : gateInside now angle el i := by
        simp [gateInside, hp, hin]
      cases hs : (gateStates now angle el i).since with
      | none =>
        exfalso
        have hsv : sinceVal (gateStates now angle el i)
            ⟨now i, angle i, el i⟩ = now i := by
          simp [sinceVal, hs]
        rw [hsv] at hf
        have h2000 : HOLD_MS = 2000 := rfl
        omega
      | some v =>
        have hsv : sinceVal (gateStates now angle el i)
            ⟨now i, angle i, el i⟩ = v := by
          simp [sinceVal, hs]
        rw [hsv] at hf
        obtain ⟨j, hj1, hj2, hj3⟩ := since_provenance now angle el i v hs
        refine ⟨j, by omega, ?_, ?_⟩
        · have : HOLD_MS = 2000 := rfl
          omega
        · intro k hk1 hk2
          rcases Nat.lt_or_ge k i with hk | hk
          · exact hj3 k hk1 hk
          · have : k = i := by omega
            subst this
            exact hgi
    · simp [drawTick, hp, hin, hf] at h
  · simp [drawTick, hp, hin] at h

/-- A tick out of tolerance delays any later lock by a full dwell
period. -/
theorem fired_delayed (hmono : Monotone now) {k i : ℕ} (hki : k < i)
    (hout : ¬ gateInside now angle el k) (h : gateFired now angle el i = true) :
    now k + HOLD_MS ≤ now i := by
  obtain ⟨j, hj1, hj2, hj3⟩ := fired_sound now angle el i h
  have hkj : k < j := by
    by_contra hkj
    exact hout (hj3 k (by omega) (by omega))
  have := hmono hkj.le
  omega

/-- In an all-inside run that lasts at least the dwell period, the lock
event fires exactly once. -/
theorem fired_exactly_once (hall : ∀ k, gateInside now angle el k)
    (hex : ∃ m, now 0 + HOLD_MS ≤ now m) :
    ∃! i, gateFired now angle el i = true := by
  classical
  have hP0 : ¬ (now 0 + HOLD_MS ≤ now 0) := by
    have : HOLD_MS = 2000 := rfl
    omega
  set istar := Nat.find hex with histar
  have hPstar : now 0 + HOLD_MS ≤ now istar := Nat.find_spec hex
  have hstar_pos : 1 ≤ istar := by
    rcases Nat.eq_zero_or_pos istar with h0 | h1
    · rw [h0] at hPstar
      exact absurd hPstar hP0
    · exact h1
  have hpre : ∀ i, i ≤ istar →
      ((gateStates now angle el i).inPoint = true ∧
        (1 ≤ i → (gateStates now angle el i).since = some (now 0)) ∧
        (∀ k, k < i → gateFired now angle el k = false)) := by
    intro i
    induction i with
    | zero =>
      intro _
      refine ⟨rfl, by omega, by omega⟩
    | succ i ih =>
      intro hle
      obtain ⟨hp, hsome, hnof⟩ := ih (by omega)
      have hin : insideCond
          (smoothUpd (gateStates now angle el i) ⟨now i, angle i, el i⟩)
          (el i) := by
        have := hall i
        simpa [gateInside, hp] using this
      have hsv : sinceVal (gateStates now angle el i) ⟨now i, angle i, el i⟩
          = now 0 := by
        rcases Nat.eq_zero_or_pos i with h0 | h1
        · subst h0
          simp [sinceVal, gateStates, gotoPointState]
        · simp [sinceVal, hsome h1]
      have hnotP : ¬ (now 0 + HOLD_MS ≤ now i) := Nat.find_min hex (by omega)
      have hf : ¬ (HOLD_MS ≤ now i - now 0) := by omega
      refine ⟨?_, ?_, ?_⟩
      · rw [gateStates_succ]
        simp [drawTick, hp, hin, hsv, hf]
      · intro _
        rw [gateStates_succ]
        simp [drawTick, hp, hin, hsv, hf]
      · intro k hk
        rcases Nat.lt_or_ge k i with hk2 | hk2
        · exact hnof k hk2
        · have : k = i := by omega
          subst this
          simp [gateFired, drawTick, hp, hin, hsv, hf]
  obtain ⟨hp, hsome, hnof⟩ := hpre istar le_rfl
  have hin : insideCond
      (smoothUpd (gateStates now angle el istar)
        ⟨now istar, angle istar, el istar⟩) (el istar) := by
    have := hall istar
    simpa [gateInside, hp] using this
  have hsv : sinceVal (gateStates now angle el istar)
      ⟨now istar, angle istar, el istar⟩ = now 0 := by
    simp [sinceVal, hsome hstar_pos]
  have hffire : gateFired now angle el istar = true := by
    have hf : HOLD_MS ≤ now istar - now 0 := by omega
    simp [gateFired, drawTick, hp, hin, hsv, hf]
  refine ⟨istar, hffire, ?_⟩
  intro j hj
  rcases Nat.lt_trichotomy j istar with hlt | heq | hgt
  · exact absurd hj (by simp [hnof j hlt])
  · exact heq
  · exfalso
    have h1 := fired_next_not_inPoint now angle el hffire
    have h2 := inPoint_mono now angle el (by omega : istar + 1 ≤ j) h1
    have h3 := fired_inPoint now angle el hj
    rw [h3] at h2
    exact Bool.true_eq_false.mp h2

end GateLemmas

/-! ## Behaviour of the fetch strategy chain -/

/-- The loop returns a body exactly when some available strategy
returns one; the body is the first such, in registration order. -/
theorem fetchUrlLoop_ok_iff (strategies : List Strategy) (errors : List String)
    (r : String) :
    fetchUrlLoop strategies errors = .ok r
      ↔ firstSuccessfulBody strategies = some r := by
  induction strategies generalizing errors with
  | nil => simp [fetchUrlLoop, firstSuccessfulBody]
  | cons s rest ih =>
    by_cases ha : s.available
    · cases hr : s.fetchResult with
      | some v =>
        simp [fetchUrlLoop, firstSuccessfulBody, ha, hr]
      | none =>
        simp only [fetchUrlLoop, firstSuccessfulBody, ha, hr,
          List.findSome?_cons, Bool.not_true, Bool.false_eq_true, if_false,
          if_true]
        exact ih _
    · simp only [fetchUrlLoop, firstSuccessfulBody, ha, List.findSome?_cons,
      Bool.not_false, if_true, Bool.false_eq_true, if_false]
      exact ih _

/-- When every strategy is unavailable or fails, the loop raises the
accumulated error list extended by one entry per available strategy. -/
theorem fetchUrlLoop_allfail (strategies : List Strategy) (errors : List String)
    (h : ∀ s ∈ strategies, s.available = false ∨ s.fetchResult = none) :
    fetchUrlLoop strategies errors
      = .error (errors ++ (strategies.filter (fun s => s.available)).map
          (fun s => s.name ++ " failed to fetch")) := by
  induction strategies generalizing errors with
  | nil => simp [fetchUrlLoop]
  | cons s rest ih =>
    have hs := h s (by simp)
    by_cases ha : s.available
    · have hr : s.fetchResult = none := by
        rcases hs with h1 | h1
        · rw [ha] at h1
          cases h1
        · exact h1
      rw [List.filter_cons_of_pos (by simp [ha])]
      simp only [fetchUrlLoop, ha, Bool.not_true, Bool.false_eq_true, if_false,
        hr]
      rw [ih (errors ++ [s.name ++ " failed to fetch"])
        (fun x hx => h x (List.mem_cons_of_mem s hx))]
      simp
    · simp only [Bool.not_eq_true] at ha
      rw [List.filter_cons_of_neg (by simp [ha])]
      simp only [fetchUrlLoop, ha, Bool.not_false, if_true]
      exact ih errors (fun x hx => h x (List.mem_cons_of_mem s hx))

/-! ## Behaviour of the nearest-satellite selection loop -/

section SelectorLemmas

variable {Satrec : Type} (twoline2rv : String → String → Option Satrec)
variable (sgp4run : Satrec → SgpState)
variable (user : ℝ × ℝ × ℝ) (jd : ℝ)

/-- A row that fails construction or propagation leaves the accumulator
unchanged. -/
theorem findStep_fail {r : TleRow}
    (h : ¬ propagationOk twoline2rv sgp4run r) (acc : Option NearestMatch) :
    findStep twoline2rv sgp4run user jd acc r = acc := by
  unfold findStep
  cases heq : twoline2rv r.line1 r.line2 with
  | none => rfl
  | some sr =>
    have herr : (sgp4run sr).error ≠ 0 := by
      intro h0
      exact h ⟨sr, heq, h0⟩
    simp [herr]

/-- A successful row updates the accumulator by the strict-minimum rule. -/
theorem findStep_ok {r : TleRow}
    (h : propagationOk twoline2rv sgp4run r) (acc : Option NearestMatch) :
    findStep twoline2rv sgp4run user jd acc r
      = match acc with
        | none => some (mkBest twoline2rv sgp4run user jd r)
        | some b =>
          if distOf twoline2rv sgp4run user jd r < b.distance_km then
            some (mkBest twoline2rv sgp4run user jd r)
          else some b := by
  obtain ⟨sr, heq, herr⟩ := h
  unfold findStep
  rw [heq]
  simp only [herr, ne_eq, not_true_eq_false, if_neg, not_not, if_pos]
  cases acc with
  | none => rfl
  | some b => rfl

/-- Folding from a non-empty accumulator always yields a result. -/
theorem foldl_findStep_some (l : List TleRow) (b : NearestMatch) :
    ∃ c, l.foldl (findStep twoline2rv sgp4run user jd) (some b) = some c := by
  induction l generalizing b with
  | nil => exact ⟨b, rfl⟩
  | cons r rest ih =>
    by_cases h : propagationOk twoline2rv sgp4run r
    · rw [List.foldl_cons, findStep_ok twoline2rv sgp4run user jd h]
      by_cases hlt : distOf twoline2rv sgp4run user jd r < b.distance_km
      · simpa [hlt] using ih (mkBest twoline2rv sgp4run user jd r)
      · simpa [hlt] using ih b
    · rw [List.foldl_cons, findStep_fail twoline2rv sgp4run user jd h]
      exact ih b

/-- The loop yields no candidate exactly when every row fails. -/
theorem foldl_findStep_none_iff (l : List TleRow) :
    l.foldl (findStep twoline2rv sgp4run user jd) none = none
      ↔ ∀ r ∈ l, ¬ propagationOk twoline2rv sgp4run r := by
  induction l with
  | nil => simp
  | cons r rest ih =>
    by_cases h : propagationOk twoline2rv sgp4run r
    · rw [List.foldl_cons, findStep_ok twoline2rv sgp4run user jd h]
      simp only
      obtain ⟨c, hc⟩ := foldl_findStep_some twoline2rv sgp4run user jd rest
        (mkBest twoline2rv sgp4run user jd r)
      rw [hc]
      simp [h]
    · rw [List.foldl_cons, findStep_fail twoline2rv sgp4run user jd h]
      simp [ih, h]

/-- Characterisation of a successful selection: either the starting
accumulator survives (all successful rows at a distance no smaller), or
the list splits around the winning row `x`, which is successful, beats
the starting accumulator, strictly beats every earlier successful row,
and is no farther than any later successful row. -/
theorem foldl_findStep_char (l : List TleRow) :
    ∀ (acc : Option NearestMatch) (b : NearestMatch),
      l.foldl (findStep twoline2rv sgp4run user jd) acc = some b →
      (acc = some b ∧ ∀ r ∈ l, propagationOk twoline2rv sgp4run r →
          b.distance_km ≤ distOf twoline2rv sgp4run user jd r)
      ∨ (∃ l1 x l2, l = l1 ++ x :: l2 ∧ propagationOk twoline2rv sgp4run x ∧
          b = mkBest twoline2rv sgp4run user jd x ∧
          (∀ bb, acc = some bb →
            distOf twoline2rv sgp4run user jd x < bb.distance_km) ∧
          (∀ r ∈ l1, propagationOk twoline2rv sgp4run r →
            distOf twoline2rv sgp4run user jd x
              < distOf twoline2rv sgp4run user jd r) ∧
          (∀ r ∈ l2, propagationOk twoline2rv sgp4run r →
            distOf twoline2rv sgp4run user jd x
              ≤ distOf twoline2rv sgp4run user jd r)) := by
  induction l with
  | nil =>
    intro acc b h
    exact Or.inl ⟨h, by simp⟩
  | cons r rest ih =>
    intro acc b h
    rw [List.foldl_cons] at h
    by_cases hok : propagationOk twoline2rv sgp4run r
    · rw [findStep_ok twoline2rv sgp4run user jd hok] at h
      rcases acc with _ | bb0
      · simp only at h
        rcases ih _ b h with ⟨heq, hall⟩ | ⟨l1, x, l2, hsplit, hxok, hb, hbb, hl1, hl2⟩
        · obtain rfl : mkBest twoline2rv sgp4run user jd r = b :=
            Option.some.inj heq
          refine Or.inr ⟨[], r, rest, by simp, hok, rfl, by simp, by simp, ?_⟩
          intro e he hoke
          have h1 := hall e he hoke
          simpa [mkBest] using h1
        · refine Or.inr ⟨r :: l1, x, l2, by simp [hsplit], hxok, hb, by simp, ?_, hl2⟩
          intro e he hoke
          rcases List.mem_cons.mp he with he1 | he1
          · subst he1
            have h1 := hbb (mkBest twoline2rv sgp4run user jd e) rfl
            simpa [mkBest] using h1
          · exact hl1 e he1 hoke
      · simp only at h
        by_cases hlt : distOf twoline2rv sgp4run user jd r < bb0.distance_km
        · rw [if_pos hlt] at h
          rcases ih _ b h with ⟨heq, hall⟩ | ⟨l1, x, l2, hsplit, hxok, hb, hbb, hl1, hl2⟩
          · obtain rfl : mkBest twoline2rv sgp4run user jd r = b :=
              Option.some.inj heq
            refine Or.inr ⟨[], r, rest, by simp, hok, rfl, ?_, by simp, ?_⟩
            · intro bb hbbeq
              obtain rfl : bb0 = bb := Option.some.inj hbbeq
              exact hlt
            · intro e he hoke
              have h1 := hall e he hoke
              simpa [mkBest] using h1
          · refine Or.inr ⟨r :: l1, x, l2, by simp [hsplit], hxok, hb, ?_, ?_, hl2⟩
            · intro bb hbbeq
              obtain rfl : bb0 = bb := Option.some.inj hbbeq
              have hxr := hbb (mkBest twoline2rv sgp4run user jd r) rfl
              have hmk : (mkBest twoline2rv sgp4run user jd r).distance_km
                  = distOf twoline2rv sgp4run user jd r := rfl
              rw [hmk] at hxr
              exact hxr.trans hlt
            · intro e he hoke
              rcases List.mem_cons.mp he with he1 | he1
              · subst he1
                have hxr := hbb (mkBest twoline2rv sgp4run user jd e) rfl
                simpa [mkBest] using hxr
              · exact hl1 e he1 hoke
        · rw [if_neg hlt] at h
          rcases ih _ b h with ⟨heq, hall⟩ | ⟨l1, x, l2, hsplit, hxok, hb, hbb, hl1, hl2⟩
          · refine Or.inl ⟨heq, ?_⟩
            intro e he hoke
            rcases List.mem_cons.mp he with he1 | he1
            · subst he1
              obtain rfl : bb0 = b := Option.some.inj heq
              exact le_of_not_lt hlt
            · exact hall e he1 hoke
          · refine Or.inr ⟨r :: l1, x, l2, by simp [hsplit], hxok, hb, ?_, ?_, hl2⟩
            · intro bb hbbeq
              obtain rfl : bb0 = bb := Option.some.inj hbbeq
              exact hbb bb0 rfl
            · intro e he hoke
              rcases List.mem_cons.mp he with he1 | he1
              · subst he1
                have hxb := hbb bb0 rfl
                exact hxb.trans_le (le_of_not_lt hlt)
              · exact hl1 e he1 hoke
    · rw [findStep_fail twoline2rv sgp4run user jd hok] at h
      rcases ih _ b h with ⟨heq, hall⟩ | ⟨l1, x, l2, hsplit, hxok, hb, hbb, hl1, hl2⟩
      · refine Or.inl ⟨heq, ?_⟩
        intro e he hoke
        rcases List.mem_cons.mp he with he1 | he1
        · subst he1
          exact absurd hoke hok
        · exact hall e he1 hoke
      · refine Or.inr ⟨r :: l1, x, l2, by simp [hsplit], hxok, hb, hbb, ?_, hl2⟩
        intro e he hoke
        rcases List.mem_cons.mp he with he1 | he1
        · subst he1
          exact absurd hoke hok
        · exact hl1 e he1 hoke

end SelectorLemmas

/-! ## Behaviour of the repository upsert -/

theorem any_identEq_iff (t : TleTable) (k : String × String × String) :
    t.rows.any (identEq k) = true ↔ k ∈ idents t := by
  simp only [identEq, idents, List.any_eq_true, List.mem_map, beq_iff_eq]

/-- A conflicting upsert leaves the stored identities unchanged. -/
theorem idents_upsertOne_present {t : TleTable} {n l1 l2 : String}
    (h : t.rows.any (identEq (n, l1, l2)) = true) (s now : String) :
    idents (upsertOne t n l1 l2 s now) = idents t := by
  unfold upsertOne
  rw [if_pos h]
  unfold idents
  simp only [List.map_map]
  refine List.map_congr_left ?_
  intro r _
  by_cases hc : identEq (n, l1, l2) r <;> simp [hc, identOf]

/-- A non-conflicting upsert appends exactly the new identity. -/
theorem idents_upsertOne_absent {t : TleTable} {n l1 l2 : String}
    (h : ¬ t.rows.any (identEq (n, l1, l2)) = true) (s now : String) :
    idents (upsertOne t n l1 l2 s now) = idents t ++ [(n, l1, l2)] := by
  unfold upsertOne
  rw [if_neg h]
  unfold idents
  simp [identOf]

/-- An upsert never removes a stored identity. -/
theorem upsertOne_preserves_present {t : TleTable}
    {k : String × String × String} (h : t.rows.any (identEq k) = true)
    (n l1 l2 s now : String) :
    (upsertOne t n l1 l2 s now).rows.any (identEq k) = true := by
  rw [any_identEq_iff] at h ⊢
  by_cases hc : t.rows.any (identEq (n, l1, l2)) = true
  · rw [idents_upsertOne_present hc]
    exact h
  · rw [idents_upsertOne_absent hc]
    exact List.mem_append_left _ h

/-- After an upsert its own identity is stored. -/
theorem upsertOne_self_present (t : TleTable) (n l1 l2 s now : String) :
    (upsertOne t n l1 l2 s now).rows.any (identEq (n, l1, l2)) = true := by
  rw [any_identEq_iff]
  by_cases hc : t.rows.any (identEq (n, l1, l2)) = true
  · rw [idents_upsertOne_present hc]
    exact (any_identEq_iff t _).mp hc
  · rw [idents_upsertOne_absent hc]
    simp

/-- After an upsert every row carrying the upserted identity has the
upserted source (the conflict branch writes it, the insert branch
creates the only such row with it). -/
theorem upsertOne_sets_source (t : TleTable) (n l1 l2 s now : String) :
    ∀ r ∈ (upsertOne t n l1 l2 s now).rows,
      identEq (n, l1, l2) r = true → r.source = s := by
  unfold upsertOne
  by_cases hc : t.rows.any (identEq (n, l1, l2)) = true
  · rw [if_pos hc]
    intro r hr hkr
    simp only [List.mem_map] at hr
    obtain ⟨r0, hr0, rfl⟩ := hr
    by_cases hc0 : identEq (n, l1, l2) r0
    · simp [hc0]
    · rw [if_neg (by simpa using hc0)] at hkr ⊢
      exact absurd hkr (by simpa using hc0)
  · rw [if_neg hc]
    intro r hr hkr
    rcases List.mem_append.mp hr with hr1 | hr1
    · exfalso
      exact hc (List.any_eq_true.mpr ⟨r, hr1, hkr⟩)
    · simp only [List.mem_singleton] at hr1
      rw [hr1]

/-- An upsert with source `s` preserves the property that every row of a
given identity carries source `s` (it only ever writes `s`). -/
theorem upsertOne_source_invariant {t : TleTable}
    {k : String × String × String} {s : String}
    (hsrc : ∀ r ∈ t.rows, identEq k r = true → r.source = s)
    (n l1 l2 now : String) :
    ∀ r ∈ (upsertOne t n l1 l2 s now).rows,
      identEq k r = true → r.source = s := by
  unfold upsertOne
  by_cases hc : t.rows.any (identEq (n, l1, l2)) = true
  · rw [if_pos hc]
    intro r hr hkr
    simp only [List.mem_map] at hr
    obtain ⟨r0, hr0, rfl⟩ := hr
    by_cases hc0 : identEq (n, l1, l2) r0
    · simp [hc0]
    · rw [if_neg (by simpa using hc0)] at hkr ⊢
      exact hsrc r0 hr0 hkr
  · rw [if_neg hc]
    intro r hr hkr
    rcases List.mem_append.mp hr with hr1 | hr1
    · exact hsrc r hr1 hkr
    · simp only [List.mem_singleton] at hr1
      rw [hr1]

/-- `upsert_tles` over a list of keys keeps every stored identity. -/
theorem upsert_tles_preserves_present {t : TleTable}
    {k : String × String × String} (h : t.rows.any (identEq k) = true)
    (tles : List (String × String × String)) (s now : String) :
    (upsert_tles t tles s now).rows.any (identEq k) = true := by
  induction tles generalizing t with
  | nil => exact h
  | cons k0 rest ih =>
    exact ih (upsertOne_preserves_present h k0.1 k0.2.1 k0.2.2 s now)

/-- After `upsert_tles` every upserted identity is stored. -/
theorem upsert_tles_present (t : TleTable)
    (tles : List (String × String × String)) (s now : String) :
    ∀ k ∈ tles, (upsert_tles t tles s now).rows.any (identEq k) = true := by
  induction tles generalizing t with
  | nil => simp
  | cons k0 rest ih =>
    intro k hk
    rcases List.mem_cons.mp hk with hk1 | hk1
    · subst hk1
      exact upsert_tles_preserves_present
        (upsertOne_self_present t k.1 k.2.1 k.2.2 s now) rest s now
    · exact ih (upsertOne t k0.1 k0.2.1 k0.2.2 s now) k hk1

/-- `upsert_tles` preserves the per-identity source invariant. -/
theorem upsert_tles_source_invariant {t : TleTable}
    {k : String × String × String} {s : String}
    (hsrc : ∀ r ∈ t.rows, identEq k r = true → r.source = s)
    (tles : List (String × String × String)) (now : String) :
    ∀ r ∈ (upsert_tles t tles s now).rows, identEq k r = true → r.source = s := by
  induction tles generalizing t with
  | nil => exact hsrc
  | cons k0 rest ih =>
    exact ih (upsertOne_source_invariant hsrc k0.1 k0.2.1 k0.2.2 now)

/-- After `upsert_tles` with source `s`, every row whose identity was
upserted carries source `s`. -/
theorem upsert_tles_source (t : TleTable)
    (tles : List (String × String × String)) (s now : String) :
    ∀ k ∈ tles, ∀ r ∈ (upsert_tles t tles s now).rows,
      identEq k r = true → r.source = s := by
  induction tles generalizing t with
  | nil => simp
  | cons k0 rest ih =>
    intro k hk
    rcases List.mem_cons.mp hk with hk1 | hk1
    · subst hk1
      exact upsert_tles_source_invariant
        (upsertOne_sets_source t k.1 k.2.1 k.2.2 s now) rest now
    · exact ih (upsertOne t k0.1 k0.2.1 k0.2.2 s now) k hk1

/-- An upsert preserves distinctness of identities. -/
theorem nodup_idents_upsertOne {t : TleTable} (h : (idents t).Nodup)
    (n l1 l2 s now : String) :
    (idents (upsertOne t n l1 l2 s now)).Nodup := by
  by_cases hc : t.rows.any (identEq (n, l1, l2)) = true
  · rw [idents_upsertOne_present hc]
    exact h
  · rw [idents_upsertOne_absent hc]
    have hmem : (n, l1, l2) ∉ idents t := fun hm =>
      hc ((any_identEq_iff t _).mpr hm)
    simp [List.nodup_append, h, hmem]

/-- `upsert_tles` preserves distinctness of identities. -/
theorem nodup_idents_upsert_tles {t : TleTable} (h : (idents t).Nodup)
    (tles : List (String × String × String)) (s now : String) :
    (idents (upsert_tles t tles s now)).Nodup := by
  induction tles generalizing t with
  | nil => exact h
  | cons k0 rest ih =>
    exact ih (nodup_idents_upsertOne h k0.1 k0.2.1 k0.2.2 s now)

/-- An `upsert_tles` call whose identities are all already stored leaves
the stored identity list (hence every `name`/`line1`/`line2` column)
unchanged. -/
theorem idents_upsert_tles_present {t : TleTable}
    {tles : List (String × String × String)}
    (h : ∀ k ∈ tles, t.rows.any (identEq k) = true) (s now : String) :
    idents (upsert_tles t tles s now) = idents t := by
  induction tles generalizing t with
  | nil => rfl
  | cons k0 rest ih =>
    have h0 := h k0 (by simp)
    calc idents (upsert_tles (upsertOne t k0.1 k0.2.1 k0.2.2 s now) rest s now)
        = idents (upsertOne t k0.1 k0.2.1 k0.2.2 s now) :=
          ih (fun k hk => upsertOne_preserves_present
            (h k (List.mem_cons_of_mem k0 hk)) k0.1 k0.2.1 k0.2.2 s now)
      _ = idents t := idents_upsertOne_present h0 s now

/-- In a table with distinct identities, a stored identity matches
exactly one row. -/
theorem filter_identEq_length_one_aux (k : String × String × String) :
    ∀ rows : List TleRow, (rows.map identOf).Nodup →
      rows.any (identEq k) = true → (rows.filter (identEq k)).length = 1 := by
  intro rows
  induction rows with
  | nil => simp
  | cons r rest ih =>
    intro hnd hany
    simp only [List.map_cons, List.nodup_cons] at hnd
    obtain ⟨hnotin, hndrest⟩ := hnd
    by_cases hk : identEq k r = true
    · rw [List.filter_cons_of_pos hk]
      have hkr : identOf r = k := by simpa [identEq] using hk
      have hrest : rest.filter (identEq k) = [] := by
        rw [List.filter_eq_nil_iff]
        intro x hx hxk
        have hxr : identOf x = k := by simpa [identEq] using hxk
        exact hnotin (by
          rw [hkr, ← hxr]
          exact List.mem_map_of_mem identOf hx)
      rw [hrest]
      rfl
    · rw [List.filter_cons_of_neg (by simpa using hk)]
      have hany2 : rest.any (identEq k) = true := by
        rcases List.any_eq_true.mp hany with ⟨x, hx, hxk⟩
        rcases List.mem_cons.mp hx with hx1 | hx1
        · exact absurd (hx1 ▸ hxk) hk
        · exact List.any_eq_true.mpr ⟨x, hx1, hxk⟩
      exact ih hndrest hany2

/-- In a table with distinct identities, a stored identity matches
exactly one row. -/
theorem filter_identEq_length_one {t : TleTable}
    {k : String × String × String} (hnd : (idents t).Nodup)
    (hpres : t.rows.any (identEq k) = true) :
    (t.rows.filter (identEq k)).length = 1 :=
  filter_identEq_length_one_aux k t.rows hnd hpres

/-! ## Further helper lemmas for the alignment gate -/

/-- The smoothed bearing after a tick: the smoothing update on the point
screen, unchanged off it. -/
theorem drawTick_smoothed (s : AlignState) (t : PointTick) :
    ((drawTick s t).1).smoothed
      = if s.inPoint then smoothUpd s t else s.smoothed := by
  unfold drawTick
  by_cases hp : s.inPoint = true
  · by_cases hin : insideCond (smoothUpd s t) t.el
    · by_cases hf : HOLD_MS ≤ t.now - sinceVal s t
      · simp [hp, hin, hf]
      · simp [hp, hin, hf]
    · simp [hp, hin]
  · simp only [Bool.not_eq_true] at hp
    simp [hp]

/-- With the smoothed bearing at `0` and a raw bearing of `0`, both
branches of the smoothing step yield `0`. -/
theorem smoothUpd_zero (s : AlignState) (t : PointTick) (hsm : s.smoothed = 0)
    (hang : t.angle = 0) : smoothUpd s t = 0 := by
  unfold smoothUpd
  by_cases hc : s.since = none ∧ s.smoothed = 0
  · rw [if_pos hc, hang]
  · rw [if_neg hc, hsm, hang]
    exact circular_ema_const SMOOTH_ALPHA le_rfl (by norm_num)

/-- A raw bearing stream constantly `0` keeps the smoothed bearing at
`0`. -/
theorem gateStates_smoothed_zero (now : ℕ → ℕ) (el : ℕ → ℝ) :
    ∀ k, (gateStates now (fun _ => 0) el k).smoothed = 0 := by
  intro k
  induction k with
  | zero => rfl
  | succ k ih =>
    rw [gateStates_succ, drawTick_smoothed]
    by_cases hp : (gateStates now (fun _ => 0) el k).inPoint = true
    · rw [if_pos hp]
      exact smoothUpd_zero _ _ ih rfl
    · simp only [Bool.not_eq_true] at hp
      rw [hp, if_neg (by simp)]
      exact ih

/-- A smoothed bearing of `0` with a target above the horizon satisfies
the inside-tolerance condition. -/
theorem insideCond_zero_five : insideCond 0 5 := by
  constructor
  · have hd : ang_diff_deg 0 0 = 0 := by
      unfold ang_diff_deg
      have h180 : (0 : ℝ) - 0 + 180 = 180 := by ring
      rw [h180, pymod_eq_self (by norm_num) (by norm_num) (by norm_num)]
      ring
    rw [hd]
    unfold ANGLE_TOL_DEG
    rw [abs_zero]
    norm_num
  · norm_num

/-- A session fed the constant raw bearing `0` against a target at `5`
degrees elevation is inside tolerance on every tick. -/
theorem gate_const_zero_inside (now : ℕ → ℕ) :
    ∀ k, gateInside now (fun _ => 0) (fun _ => 5) k := by
  intro k
  unfold gateInside
  by_cases hp : (gateStates now (fun _ => 0) (fun _ => 5) k).inPoint = true
  · rw [if_pos hp,
      smoothUpd_zero _ _ (gateStates_smoothed_zero now (fun _ => 5) k) rfl]
    exact insideCond_zero_five
  · rw [if_neg hp]
    trivial

/-- The raw-assignment branch of the smoothing step. -/
theorem smoothUpd_raw (s : AlignState) (t : PointTick) (h1 : s.since = none)
    (h2 : s.smoothed = 0) : smoothUpd s t = t.angle := by
  unfold smoothUpd
  rw [if_pos ⟨h1, h2⟩]

/-- With the target at or below the horizon a point-screen tick clears
the dwell timer and does not fire. -/
theorem drawTick_below_horizon (s : AlignState) (t : PointTick)
    (hp : s.inPoint = true) (hel : t.el ≤ 0) :
    drawTick s t = (⟨smoothUpd s t, none, true⟩, false) := by
  unfold drawTick
  rw [if_pos hp, if_neg (fun hc => absurd hc.2 (not_lt.mpr hel))]

/-! ## Claims -/

/-- C1: the claim states that every upserted row gets `source` set to
the call's source tag and `fetched_at` set to the call-time timestamp,
including on the conflict path.  The code's `UPSERT_SQL` instead writes
`excluded.source` into `fetched_at` on conflict: upserting the same
identity a second time at call time `"T2"` with source `"src2"` leaves
the row's `fetched_at` equal to `"src2"`, not `"T2"`. -/
theorem C1_conflict_fetched_at_is_source :
    ((upsert_tles (upsert_tles emptyTable [("SAT-A", "1 A", "2 A")] "src1" "T1")
        [("SAT-A", "1 A", "2 A")] "src2" "T2").rows.map TleRow.fetched_at
      = ["src2"]) ∧ ("src2" : String) ≠ "T2" := by
  exact ⟨by decide, by decide⟩

/-- C2: upserting the same identity triples twice with different sources
leaves distinct identities, exactly one stored row per upserted
identity, that row's `source` from the most recent call, and the stored
`name`/`line1`/`line2` columns unchanged by the second call. -/
theorem C2_upsert_identity_invariant (t : TleTable)
    (tles : List (String × String × String)) (s1 s2 n1 n2 : String)
    (hnd : (idents t).Nodup) :
    (idents (upsert_tles (upsert_tles t tles s1 n1) tles s2 n2)).Nodup ∧
    idents (upsert_tles (upsert_tles t tles s1 n1) tles s2 n2)
      = idents (upsert_tles t tles s1 n1) ∧
    ∀ k ∈ tles,
      ((upsert_tles (upsert_tles t tles s1 n1) tles s2 n2).rows.filter
          (identEq k)).length = 1 ∧
      ∀ r ∈ (upsert_tles (upsert_tles t tles s1 n1) tles s2 n2).rows,
        identEq k r = true → r.source = s2 ∧ identOf r = k := by
  have h1nd := nodup_idents_upsert_tles hnd tles s1 n1
  have h1pres := upsert_tles_present t tles s1 n1
  have h2nd := nodup_idents_upsert_tles h1nd tles s2 n2
  refine ⟨h2nd, idents_upsert_tles_present h1pres s2 n2, ?_⟩
  intro k hk
  have hpres2 : (upsert_tles (upsert_tles t tles s1 n1) tles s2 n2).rows.any
      (identEq k) = true :=
    upsert_tles_preserves_present (h1pres k hk) tles s2 n2
  refine ⟨filter_identEq_length_one h2nd hpres2, ?_⟩
  intro r hr hkr
  exact ⟨upsert_tles_source (upsert_tles t tles s1 n1) tles s2 n2 k hk r hr hkr,
    by simpa [identEq] using hkr⟩

/-- Witness for C2 at a concrete table and key. -/
theorem C2_upsert_identity_invariant_witness :
    ((upsert_tles (upsert_tles emptyTable [("SAT-A", "1 A", "2 A")] "s1" "T1")
        [("SAT-A", "1 A", "2 A")] "s2" "T2").rows.filter
        (identEq ("SAT-A", "1 A", "2 A"))).length = 1 :=
  ((C2_upsert_identity_invariant emptyTable [("SAT-A", "1 A", "2 A")]
      "s1" "s2" "T1" "T2" (by simp [idents, emptyTable])).2.2
    ("SAT-A", "1 A", "2 A") (by simp)).1

/-- C3: the claim states that a due wake with connectivity performs
fetch→parse→upsert and records `lastFetchTime`.  In the source the body
of `TleRepositoryUtils.fetch_and_store_group` is entirely commented out
(against its own docstring), so a due and available wake records
`lastFetchTime` yet stores nothing: from an empty repository the store
stays empty. -/
theorem C3_due_available_wake_stores_nothing :
    schedulerWake ⟨none, emptyTable⟩ 0 3600 true "active"
      = ⟨some 0, emptyTable⟩ := by
  decide

/-- C4 counterexample: with a single unavailable strategy, every
strategy is unavailable, yet the aggregate error raised by `fetch_url`
enumerates no outcome at all (the loop records nothing for skipped
strategies), refuting "enumerates each strategy's outcome". -/
theorem C4_counterexample_error_omits_unavailable :
    fetch_url [⟨"WifiStrategy", false, none⟩] = Except.error [] ∧
    ([(⟨"WifiStrategy", false, none⟩ : Strategy)] : List Strategy).length = 1 :=
  ⟨rfl, rfl⟩

/-- C4 (amended): `fetch_url` tries strategies in registration order,
skips unavailable ones and returns the first non-`None` body; whenever
every strategy is unavailable or fails it raises an aggregate error
enumerating the outcome of each strategy that was available but failed
(skipped unavailable strategies are not enumerated); it never returns a
body silently on that path. -/
theorem C4_fetch_url_behaviour (strategies : List Strategy) :
    (∀ r, fetch_url strategies = .ok r
      ↔ firstSuccessfulBody strategies = some r) ∧
    ((∀ s ∈ strategies, s.available = false ∨ s.fetchResult = none) →
      fetch_url strategies
        = .error ((strategies.filter (fun s => s.available)).map
            (fun s => s.name ++ " failed to fetch"))) := by
  constructor
  · intro r
    exact fetchUrlLoop_ok_iff strategies [] r
  · intro h
    have := fetchUrlLoop_allfail strategies [] h
    simpa using this

/-- Witness for C4 at a concrete chain: one available-but-failing
strategy followed by one unavailable strategy. -/
theorem C4_fetch_url_behaviour_witness :
    fetch_url [⟨"WifiStrategy", true, none⟩, ⟨"CellularStrategy", false, none⟩]
      = Except.error ["WifiStrategy failed to fetch"] :=
  (C4_fetch_url_behaviour
      [⟨"WifiStrategy", true, none⟩, ⟨"CellularStrategy", false, none⟩]).2
    (by decide)

/-- C5: `find_nearest_satellite` returns `None` exactly when every
catalog row fails construction or propagation (in particular on an
empty catalog); otherwise it returns the record built from a successful
row at minimum ECEF distance from the ground station, ties resolved in
favour of the earliest such row in catalog order. -/
theorem C5_find_nearest_characterisation {Satrec : Type}
    (twoline2rv : String → String → Option Satrec)
    (sgp4run : Satrec → SgpState) (lat_deg lon_deg alt_m jd : ℝ)
    (tles : List TleRow) :
    (find_nearest_satellite twoline2rv sgp4run lat_deg lon_deg alt_m jd tles
        = none ↔ ∀ r ∈ tles, ¬ propagationOk twoline2rv sgp4run r) ∧
    (∀ b, find_nearest_satellite twoline2rv sgp4run lat_deg lon_deg alt_m jd
        tles = some b →
      ∃ l1 x l2, tles = l1 ++ x :: l2 ∧ propagationOk twoline2rv sgp4run x ∧
        b = mkBest twoline2rv sgp4run (geodetic_to_ecef lat_deg lon_deg alt_m)
              jd x ∧
        (∀ r ∈ l1, propagationOk twoline2rv sgp4run r →
          distOf twoline2rv sgp4run (geodetic_to_ecef lat_deg lon_deg alt_m)
              jd x
            < distOf twoline2rv sgp4run
                (geodetic_to_ecef lat_deg lon_deg alt_m) jd r) ∧
        (∀ r ∈ l2, propagationOk twoline2rv sgp4run r →
          distOf twoline2rv sgp4run (geodetic_to_ecef lat_deg lon_deg alt_m)
              jd x
            ≤ distOf twoline2rv sgp4run
                (geodetic_to_ecef lat_deg lon_deg alt_m) jd r)) := by
  constructor
  · exact foldl_findStep_none_iff twoline2rv sgp4run
      (geodetic_to_ecef lat_deg lon_deg alt_m) jd tles
  · intro b hb
    rcases foldl_findStep_char twoline2rv sgp4run
        (geodetic_to_ecef lat_deg lon_deg alt_m) jd tles none b hb with
      ⟨h1, _⟩ | ⟨l1, x, l2, hsplit, hxok, hbx, _, hl1, hl2⟩
    · cases h1
    · exact ⟨l1, x, l2, hsplit, hxok, hbx, hl1, hl2⟩

/-- Witness for C5: a catalog whose single element fails construction
yields no match. -/
theorem C5_find_nearest_characterisation_witness :
    find_nearest_satellite (fun _ _ => (none : Option Unit))
      (fun _ => ⟨1, (0, 0, 0), (0, 0, 0)⟩) 43.7 (-79.4) 0 2451545
      [⟨1, "SAT-A", "1 A", "2 A", "s", "T"⟩] = none :=
  (C5_find_nearest_characterisation (fun _ _ => (none : Option Unit))
      (fun _ => ⟨1, (0, 0, 0), (0, 0, 0)⟩) 43.7 (-79.4) 0 2451545
      [⟨1, "SAT-A", "1 A", "2 A", "s", "T"⟩]).1.mpr
    (by
      intro r _ hok
      obtain ⟨sr, hsr, _⟩ := hok
      cases hsr)

/-- C6: on a monotone tick stream the alignment gate (1) fires only
after the inside-tolerance condition on the smoothed bearing has held
on a contiguous run of ticks spanning at least `HOLD_MS` milliseconds,
(2) is delayed past any out-of-tolerance tick by a full dwell period,
and (3) fires exactly once on a run that is inside tolerance throughout
and lasts at least the dwell. -/
theorem C6_alignment_gate (now : ℕ → ℕ) (angle el : ℕ → ℝ)
    (hmono : Monotone now) :
    (∀ i, gateFired now angle el i = true →
      ∃ j, j ≤ i ∧ now j + HOLD_MS ≤ now i ∧
        ∀ k, j ≤ k → k ≤ i → gateInside now angle el k) ∧
    (∀ k i, k < i → ¬ gateInside now angle el k →
      gateFired now angle el i = true → now k + HOLD_MS ≤ now i) ∧
    ((∀ k, gateInside now angle el k) → (∃ m, now 0 + HOLD_MS ≤ now m) →
      ∃! i, gateFired now angle el i = true) :=
  ⟨fun i => fired_sound now angle el i,
    fun k i hki hout h => fired_delayed now angle el hmono hki hout h,
    fun hall hex => fired_exactly_once now angle el hall hex⟩

/-- Witness for C6: ticks every 2000 ms, raw bearing constantly `0`,
target at elevation `5`: the gate locks exactly once. -/
theorem C6_alignment_gate_witness :
    ∃! i, gateFired (fun i => 2000 * i) (fun _ => 0) (fun _ => 5) i = true :=
  (C6_alignment_gate (fun i => 2000 * i) (fun _ => 0) (fun _ => 5)
      (fun a b h => by simpa using Nat.mul_le_mul_left 2000 h)).2.2
    (gate_const_zero_inside (fun i => 2000 * i))
    ⟨1, by norm_num [HOLD_MS]⟩

/-- C7: a constant bearing in `[0, 360)` is a fixed point of the
circular exponential moving average, for every smoothing factor in
`(0, 1]`. -/
theorem C7_circular_ema_fixed_point (b alpha : ℝ) (hb0 : 0 ≤ b)
    (hb1 : b < 360) (ha0 : 0 < alpha) (ha1 : alpha ≤ 1) :
    circular_ema b b alpha = b :=
  circular_ema_const alpha hb0 hb1

/-- Witness for C7 at `b = 90`, `alpha = 1/2`. -/
theorem C7_circular_ema_fixed_point_witness :
    circular_ema 90 90 (1 / 2) = 90 :=
  C7_circular_ema_fixed_point 90 (1 / 2) (by norm_num) (by norm_num)
    (by norm_num) (by norm_num)

/-- C8: `parse_tles` yields one triple from one 3-line block, two
triples in order from two blocks, and discards a malformed trailing
fragment. -/
theorem C8_parse_tles_blocks :
    parse_tles "SAT-A\n1 00005U\n2 00005"
      = [("SAT-A", "1 00005U", "2 00005")] ∧
    parse_tles "SAT-A\n1 00005U\n2 00005\nSAT-B\n1 11111U\n2 11111"
      = [("SAT-A", "1 00005U", "2 00005"), ("SAT-B", "1 11111U", "2 11111")] ∧
    parse_tles "SAT-A\n1 00005U\n2 00005\nSAT-B\n1 11111U\n2 11111\nSAT-C\n1 22222U"
      = [("SAT-A", "1 00005U", "2 00005"), ("SAT-B", "1 11111U", "2 11111")] :=
  ⟨by decide, by decide, by decide⟩

/-- C9 counterexample: the claim states the raw assignment of the
smoothed bearing happens only on the first tick of a session.  In the
session below (raw bearing `0` then `90`, target below the horizon so
the dwell timer stays unset), the second tick takes the raw-assignment
branch again: the smoothed bearing jumps to `90`, which is not the
circular EMA of the previous smoothed bearing `0` and the raw bearing
`90`. -/
theorem C9_counterexample :
    (gateStates (fun i => 50 * i) (fun i => if i = 0 then 0 else 90)
        (fun _ => -1) 1).smoothed = 0 ∧
    (gateStates (fun i => 50 * i) (fun i => if i = 0 then 0 else 90)
        (fun _ => -1) 2).smoothed = 90 ∧
    circular_ema 0 90 SMOOTH_ALPHA ≠ 90 := by
  have h1 : gateStates (fun i => 50 * i) (fun i => if i = 0 then 0 else 90)
      (fun _ => -1) 1 = ⟨0, none, true⟩ := by
    rw [show (1 : ℕ) = 0 + 1 from rfl, gateStates_succ,
      drawTick_below_horizon _ _ rfl (by norm_num),
      smoothUpd_raw _ _ rfl rfl]
    simp
  have h2 : (gateStates (fun i => 50 * i) (fun i => if i = 0 then 0 else 90)
      (fun _ => -1) 2).smoothed = 90 := by
    rw [show (2 : ℕ) = 1 + 1 from rfl, gateStates_succ, drawTick_smoothed, h1,
      if_pos rfl, smoothUpd_raw _ _ rfl rfl]
    simp
  exact ⟨by rw [h1], h2, circular_ema_zero_ninety_ne⟩

/-- C9 (amended): on the first tick of a session the smoothed bearing is
set to the raw bearing; on any later tick the raw assignment recurs
exactly when the dwell timer is unset and the smoothed bearing equals
`0.0`; on every other tick the circular EMA of the previous smoothed
bearing and the raw bearing is applied. -/
theorem C9_smoothing_initialization (now : ℕ → ℕ) (angle el : ℕ → ℝ) :
    ((gateStates now angle el 0).since = none ∧
      (gateStates now angle el 0).smoothed = 0 ∧
      (gateStates now angle el 0).inPoint = true) ∧
    (∀ i, (gateStates now angle el i).inPoint = true →
      (((gateStates now angle el i).since = none ∧
          (gateStates now angle el i).smoothed = 0) →
        (gateStates now angle el (i + 1)).smoothed = angle i) ∧
      (¬ ((gateStates now angle el i).since = none ∧
          (gateStates now angle el i).smoothed = 0) →
        (gateStates now angle el (i + 1)).smoothed
          = circular_ema (gateStates now angle el i).smoothed (angle i)
              SMOOTH_ALPHA)) := by
  refine ⟨⟨rfl, rfl, rfl⟩, ?_⟩
  intro i hp
  constructor
  · intro hc
    rw [gateStates_succ, drawTick_smoothed, if_pos hp]
    unfold smoothUpd
    rw [if_pos hc]
  · intro hc
    rw [gateStates_succ, drawTick_smoothed, if_pos hp]
    unfold smoothUpd
    rw [if_neg hc]

/-- Witness for the amended C9: the first tick of a session assigns the
raw bearing `33` directly. -/
theorem C9_smoothing_initialization_witness :
    (gateStates (fun i => 50 * i) (fun _ => 33) (fun _ => -1) 1).smoothed
      = 33 :=
  (((C9_smoothing_initialization (fun i => 50 * i) (fun _ => 33)
      (fun _ => -1)).2 0 rfl).1 ⟨rfl, rfl⟩)

/-- C10: the ECI-to-ECEF conversion is a Z-axis rotation: it preserves
the third coordinate and the Euclidean norm of every position vector,
at every epoch. -/
theorem C10_eci_to_ecef_rotation (p : ℝ × ℝ × ℝ) (jd : ℝ) :
    (eci_to_ecef p jd).2.2 = p.2.2 ∧ norm3 (eci_to_ecef p jd) = norm3 p :=
  ⟨eci_to_ecef_z p jd, eci_to_ecef_norm p jd⟩

end Skylock
